import Mathlib

/-!
Verification of the uncov coverage-reporting CLI core: a shallow embedding of
the configuration resolver (`src/lib/config.ts`), the coverage model and
filter (`src/lib/coverage.ts`), the report orchestrator
(`src/commands/report.ts`), the formatter (`src/utils/format.ts`) and the
file-system utilities (`src/utils/fs.ts`), together with theorems settling
the specification claims about them.

JavaScript numbers are modelled as rationals (ℚ); JSON values (the result of
`JSON.parse`) as the inductive `JSValue`, where an object is its
insertion-ordered entry list.
-/

/-- A JSON value as produced by `JSON.parse`: null, boolean, number, string,
array, or object (modelled as its insertion-ordered, unique-keyed entry
list). -/
inductive JSValue where
  | null
  | bool (b : Bool)
  | num (q : ℚ)
  | str (s : String)
  | arr (items : List JSValue)
  | obj (fields : List (String × JSValue))

/-- First binding of a key in an object entry list (JS object property
lookup). -/
def findField : List (String × JSValue) → String → Option JSValue
  | [], _ => none
  | (k', v) :: rest, k => if k' = k then some v else findField rest k

/-- JS property access `v[k]` for the non-index keys used by this program:
defined on objects, `undefined` (`none`) on every other value (including
arrays, whose index and `length` properties are never accessed here). -/
def getField : JSValue → String → Option JSValue
  | .obj fields, k => findField fields k
  | _, _ => none

/-- Models `typeof v === "object" && v !== null`: true for objects and
arrays (JS `typeof` of an array is `"object"`), false for null and all
primitives. -/
def isNonNullJsObject : JSValue → Bool
  | .obj _ => true
  | .arr _ => true
  | _ => false

/-- `Object.entries`: the entry list of an object; index-keyed entries for an
array; empty for primitives (the program only reaches this on objects and
arrays). -/
def entriesOf : JSValue → List (String × JSValue)
  | .obj fields => fields
  | .arr items => (items.enum.map fun e => (toString e.1, e.2))
  | _ => []

/-! ## Configuration model (`src/lib/config.ts`) -/

/-- Resolved configuration (`UncovConfig` in `config.ts`). -/
structure UncovConfig where
  threshold : ℚ
  exclude : List String
  failOnLow : Bool
  coveragePath : String
deriving DecidableEq

/-- `Partial<UncovConfig>`: each field optionally present. -/
structure PartialUncovConfig where
  threshold : Option ℚ := none
  exclude : Option (List String) := none
  failOnLow : Option Bool := none
  coveragePath : Option String := none
deriving DecidableEq

/-- `DEFAULT_CONFIG` from `config.ts`. -/
def DEFAULT_CONFIG : UncovConfig :=
  { threshold := 10
    exclude := []
    failOnLow := false
    coveragePath := "coverage/coverage-summary.json" }

/-- Models `Array.isArray(x) && x.every(e => typeof e === "string")` fused
with the re-typed assignment: the string list when every element is a
string, `none` otherwise. -/
def strListOf : List JSValue → Option (List String)
  | [] => some []
  | .str s :: rest => (strListOf rest).map fun l => s :: l
  | _ :: _ => none

/-- `validatePartialConfig` from `config.ts`: field-by-field extraction of an
untyped object; each failing field is silently dropped. -/
def validatePartialConfig (v : JSValue) : PartialUncovConfig :=
  { threshold :=
      match getField v "threshold" with
      | some (.num t) => if 0 ≤ t ∧ t ≤ 100 then some t else none
      | _ => none
    exclude :=
      match getField v "exclude" with
      | some (.arr items) => strListOf items
      | _ => none
    failOnLow :=
      match getField v "failOnLow" with
      | some (.bool b) => some b
      | _ => none
    coveragePath :=
      match getField v "coveragePath" with
      | some (.str s) => some s
      | _ => none }

/-- The loop body of `mergeConfigs`: a defined field of `config` overwrites
the corresponding field of `result`. -/
def applyPartialConfig (result : UncovConfig) (config : PartialUncovConfig) : UncovConfig :=
  { threshold := match config.threshold with | some t => t | none => result.threshold
    exclude := match config.exclude with | some e => e | none => result.exclude
    failOnLow := match config.failOnLow with | some f => f | none => result.failOnLow
    coveragePath :=
      match config.coveragePath with | some c => c | none => result.coveragePath }

/-- `mergeConfigs(...configs)` from `config.ts`: fold the partials over a
copy of the default configuration, later partials taking precedence. -/
def mergeConfigs (configs : List PartialUncovConfig) : UncovConfig :=
  configs.foldl applyPartialConfig DEFAULT_CONFIG

/-- State of a file on disk as the program can observe it: absent, present
but unreadable, present but not valid JSON, or present with parsed JSON
content. -/
inductive FileState where
  | absent
  | unreadable
  | invalidJson
  | content (v : JSValue)

/-- Whether a `FileState` carries parseable content. -/
def FileState.isContent : FileState → Bool
  | .content _ => true
  | _ => false

/-- `readPackageJsonConfig` from `config.ts`: `none` when `package.json` is
absent, unreadable or unparseable (the `try/catch` swallows both failures),
or when its `uncov` field is absent or not a non-null object; otherwise the
field-validated partial config. -/
def readPackageJsonConfig : FileState → Option PartialUncovConfig
  | .absent => none
  | .unreadable => none
  | .invalidJson => none
  | .content v =>
    match getField v "uncov" with
    | some u => if isNonNullJsObject u then some (validatePartialConfig u) else none
    | none => none

/-- The dedicated `uncov.config.json` source inside `loadConfig`:
`findConfigFile` skips an absent file, and the `try/catch` around `readJson`
swallows read and parse failures, so only parsed content contributes (after
field validation). -/
def readConfigFilePartial : FileState → Option PartialUncovConfig
  | .content v => some (validatePartialConfig v)
  | _ => none

/-- `loadConfig(cliOverrides?, cwd?)` from `config.ts`, with the two config
files abstracted by their observable `FileState`: pushes the package.json
partial, then the config-file partial, then the caller overrides (unvalidated),
and merges. -/
def loadConfig (cliOverrides : Option PartialUncovConfig)
    (pkgSt cfgSt : FileState) : UncovConfig :=
  let configs0 : List PartialUncovConfig := []
  let configs1 :=
    match readPackageJsonConfig pkgSt with
    | some p => configs0 ++ [p]
    | none => configs0
  let configs2 :=
    match readConfigFilePartial cfgSt with
    | some p => configs1 ++ [p]
    | none => configs1
  let configs3 :=
    match cliOverrides with
    | some c => configs2 ++ [c]
    | none => configs2
  mergeConfigs configs3

/-! ## Last-write-wins helpers (spec-side vocabulary) -/

/-- Last element of a list, or a default when empty: the value a
last-write-wins merge leaves in place. -/
def lastD {α : Type} (l : List α) (d : α) : α :=
  match l with
  | [] => d
  | x :: xs => lastD xs x

/-- Turn an optional source into its contribution to the merge sequence. -/
def optToList {α : Type} : Option α → List α
  | some a => [a]
  | none => []

theorem lastD_append_singleton {α : Type} (xs : List α) (a d : α) :
    lastD (xs ++ [a]) d = a := by
  induction xs generalizing d with
  | nil => rfl
  | cons x xs ih => simpa [lastD] using ih x

/-- Two resolved configurations with equal fields are equal. -/
theorem UncovConfig.ext' {x y : UncovConfig}
    (h1 : x.threshold = y.threshold) (h2 : x.exclude = y.exclude)
    (h3 : x.failOnLow = y.failOnLow) (h4 : x.coveragePath = y.coveragePath) :
    x = y := by
  cases x; cases y; simp_all

theorem foldl_apply_threshold (cs : List PartialUncovConfig) (init : UncovConfig) :
    (cs.foldl applyPartialConfig init).threshold
      = lastD (cs.filterMap fun c => c.threshold) init.threshold := by
  induction cs generalizing init with
  | nil => rfl
  | cons c cs ih =>
    cases h : c.threshold with
    | none => simp [List.foldl_cons, ih, applyPartialConfig, h, List.filterMap_cons]
    | some t => simp [List.foldl_cons, ih, applyPartialConfig, h, List.filterMap_cons, lastD]

theorem foldl_apply_exclude (cs : List PartialUncovConfig) (init : UncovConfig) :
    (cs.foldl applyPartialConfig init).exclude
      = lastD (cs.filterMap fun c => c.exclude) init.exclude := by
  induction cs generalizing init with
  | nil => rfl
  | cons c cs ih =>
    cases h : c.exclude with
    | none => simp [List.foldl_cons, ih, applyPartialConfig, h, List.filterMap_cons]
    | some e => simp [List.foldl_cons, ih, applyPartialConfig, h, List.filterMap_cons, lastD]

theorem foldl_apply_failOnLow (cs : List PartialUncovConfig) (init : UncovConfig) :
    (cs.foldl applyPartialConfig init).failOnLow
      = lastD (cs.filterMap fun c => c.failOnLow) init.failOnLow := by
  induction cs generalizing init with
  | nil => rfl
  | cons c cs ih =>
    cases h : c.failOnLow with
    | none => simp [List.foldl_cons, ih, applyPartialConfig, h, List.filterMap_cons]
    | some f => simp [List.foldl_cons, ih, applyPartialConfig, h, List.filterMap_cons, lastD]

theorem foldl_apply_coveragePath (cs : List PartialUncovConfig) (init : UncovConfig) :
    (cs.foldl applyPartialConfig init).coveragePath
      = lastD (cs.filterMap fun c => c.coveragePath) init.coveragePath := by
  induction cs generalizing init with
  | nil => rfl
  | cons c cs ih =>
    cases h : c.coveragePath with
    | none => simp [List.foldl_cons, ih, applyPartialConfig, h, List.filterMap_cons]
    | some p => simp [List.foldl_cons, ih, applyPartialConfig, h, List.filterMap_cons, lastD]

/-- C6: `mergeConfigs` is a last-write-wins fold over the four independent
fields starting from the default configuration: with zero arguments it
returns exactly the default configuration, and for every sequence of
partials each field of the result is the last defined value for that field,
or the default when no partial defines it. -/
theorem mergeConfigs_last_write_wins :
    mergeConfigs [] = DEFAULT_CONFIG
    ∧ ∀ cs : List PartialUncovConfig,
        mergeConfigs cs
          = { threshold :=
                lastD (cs.filterMap fun c => c.threshold) DEFAULT_CONFIG.threshold
              exclude :=
                lastD (cs.filterMap fun c => c.exclude) DEFAULT_CONFIG.exclude
              failOnLow :=
                lastD (cs.filterMap fun c => c.failOnLow) DEFAULT_CONFIG.failOnLow
              coveragePath :=
                lastD (cs.filterMap fun c => c.coveragePath) DEFAULT_CONFIG.coveragePath } := by
  constructor
  · rfl
  · intro cs
    exact UncovConfig.ext' (foldl_apply_threshold cs DEFAULT_CONFIG)
      (foldl_apply_exclude cs DEFAULT_CONFIG)
      (foldl_apply_failOnLow cs DEFAULT_CONFIG)
      (foldl_apply_coveragePath cs DEFAULT_CONFIG)


theorem strListOf_eq_some_iff (items : List JSValue) (l : List String) :
    strListOf items = some l ↔ items = l.map JSValue.str := by
  induction items generalizing l with
  | nil =>
    cases l <;> simp [strListOf]
  | cons x rest ih =>
    cases x with
    | str s =>
      cases l with
      | nil => simp [strListOf, Option.map_eq_some']
      | cons t ts =>
        simp only [strListOf, Option.map_eq_some', List.map_cons, List.cons.injEq,
          JSValue.str.injEq]
        constructor
        · rintro ⟨l', hl', hs, htl⟩
          exact ⟨hs.symm ▸ rfl, by simpa [← htl] using (ih l').mp hl'⟩
        · rintro ⟨hs, hrest⟩
          exact ⟨ts, (ih ts).mpr hrest, by simp [hs]⟩
    | null => simp [strListOf]; intro h; cases l <;> simp_all
    | bool b => simp [strListOf]; intro h; cases l <;> simp_all
    | num q => simp [strListOf]; intro h; cases l <;> simp_all
    | arr a => simp [strListOf]; intro h; cases l <;> simp_all
    | obj o => simp [strListOf]; intro h; cases l <;> simp_all

theorem lastD_append_last {α : Type} (xs ys : List α) (a d : α) :
    lastD (xs ++ (ys ++ [a])) d = a := by
  rw [← List.append_assoc]
  exact lastD_append_singleton _ _ _

theorem loadConfig_eq_merge (cli : Option PartialUncovConfig) (pkgSt cfgSt : FileState) :
    loadConfig cli pkgSt cfgSt
      = mergeConfigs (optToList (readPackageJsonConfig pkgSt)
          ++ optToList (readConfigFilePartial cfgSt) ++ optToList cli) := by
  unfold loadConfig optToList
  cases readPackageJsonConfig pkgSt <;> cases readConfigFilePartial cfgSt <;>
    cases cli <;> simp

/-- C5: field-level validation accepts `threshold` only when numeric in
[0, 100] (inclusive), `exclude` only when an all-string array, `failOnLow`
only when boolean, `coveragePath` only when a string; a failing field is
dropped silently, so a config file containing only `threshold: 150` yields
the default configuration (threshold 10, never 150). -/
theorem validatePartialConfig_field_rules (v : JSValue) :
    (∀ q : ℚ, (validatePartialConfig v).threshold = some q
        ↔ getField v "threshold" = some (.num q) ∧ 0 ≤ q ∧ q ≤ 100)
    ∧ (∀ l : List String, (validatePartialConfig v).exclude = some l
        ↔ getField v "exclude" = some (.arr (l.map JSValue.str)))
    ∧ (∀ b : Bool, (validatePartialConfig v).failOnLow = some b
        ↔ getField v "failOnLow" = some (.bool b))
    ∧ (∀ s : String, (validatePartialConfig v).coveragePath = some s
        ↔ getField v "coveragePath" = some (.str s))
    ∧ loadConfig none .absent (.content (.obj [("threshold", .num 150)]))
        = DEFAULT_CONFIG := by
  refine ⟨?_, ?_, ?_, ?_, ?_⟩
  · intro q
    show (match getField v "threshold" with
          | some (.num t) => if 0 ≤ t ∧ t ≤ 100 then some t else none
          | _ => none) = some q
        ↔ getField v "threshold" = some (.num q) ∧ 0 ≤ q ∧ q ≤ 100
    cases h : getField v "threshold" with
    | none => simp
    | some u =>
      cases u with
      | num t =>
        by_cases ht : 0 ≤ t ∧ t ≤ 100
        · simp only [if_pos ht, Option.some.injEq, JSValue.num.injEq]
          constructor
          · rintro rfl; exact ⟨rfl, ht⟩
          · rintro ⟨rfl, _⟩; rfl
        · simp only [if_neg ht, Option.some.injEq, JSValue.num.injEq]
          constructor
          · intro hf; exact Option.noConfusion hf
          · rintro ⟨rfl, h0, h100⟩; exact absurd ⟨h0, h100⟩ ht
      | null => simp
      | bool b => simp
      | str s => simp
      | arr a => simp
      | obj o => simp
  · intro l
    show (match getField v "exclude" with
          | some (.arr items) => strListOf items
          | _ => none) = some l
        ↔ getField v "exclude" = some (.arr (l.map JSValue.str))
    cases h : getField v "exclude" with
    | none => simp
    | some u =>
      cases u with
      | arr items =>
        simp only [Option.some.injEq, JSValue.arr.injEq]
        rw [strListOf_eq_some_iff]
      | null => simp
      | bool b => simp
      | num q => simp
      | str s => simp
      | obj o => simp
  · intro b
    show (match getField v "failOnLow" with
          | some (.bool c) => some c
          | _ => none) = some b
        ↔ getField v "failOnLow" = some (.bool b)
    cases h : getField v "failOnLow" with
    | none => simp
    | some u => cases u <;> simp
  · intro s
    show (match getField v "coveragePath" with
          | some (.str c) => some c
          | _ => none) = some s
        ↔ getField v "coveragePath" = some (.str s)
    cases h : getField v "coveragePath" with
    | none => simp
    | some u => cases u <;> simp
  · decide

/-- C10: caller-supplied overrides bypass field-level validation: `loadConfig`
pushes the overrides partial into the merge verbatim, so any defined
`threshold` (even one outside [0, 100], such as 150) survives into the
result, while the validated sources (manifest and config file) can only ever
contribute a threshold within [0, 100]. -/
theorem cliOverrides_bypass_validation (pkgSt cfgSt : FileState)
    (cli : PartialUncovConfig) (q : ℚ) (h : cli.threshold = some q) :
    (loadConfig (some cli) pkgSt cfgSt).threshold = q
    ∧ ∀ (v : JSValue) (t : ℚ),
        (validatePartialConfig v).threshold = some t → 0 ≤ t ∧ t ≤ 100 := by
  constructor
  · rw [loadConfig_eq_merge]
    show ((optToList (readPackageJsonConfig pkgSt) ++ optToList (readConfigFilePartial cfgSt)
        ++ optToList (some cli)).foldl applyPartialConfig DEFAULT_CONFIG).threshold = q
    rw [foldl_apply_threshold]
    simp only [optToList, List.append_assoc, List.filterMap_append, List.filterMap_cons, h]
    exact lastD_append_last _ _ _ _
  · intro v t hv
    replace hv : (match getField v "threshold" with
          | some (.num t) => if 0 ≤ t ∧ t ≤ 100 then some t else none
          | _ => none) = some t := hv
    cases hg : getField v "threshold" with
    | none => rw [hg] at hv; exact Option.noConfusion hv
    | some u =>
      rw [hg] at hv
      cases u with
      | num s =>
        dsimp only at hv
        by_cases hs : 0 ≤ s ∧ s ≤ 100
        · rw [if_pos hs] at hv
          cases hv
          exact hs
        · rw [if_neg hs] at hv
          exact Option.noConfusion hv
      | null => exact Option.noConfusion hv
      | bool b => exact Option.noConfusion hv
      | str s => exact Option.noConfusion hv
      | arr a => exact Option.noConfusion hv
      | obj o => exact Option.noConfusion hv

/-- Witness for `cliOverrides_bypass_validation`: a concrete overrides
partial with threshold 150 (outside the validated range) reaches the merged
configuration verbatim. -/
theorem cliOverrides_bypass_validation_witness :
    ({ threshold := some 150 : PartialUncovConfig }).threshold = some 150
    ∧ ((loadConfig (some { threshold := some 150 }) .absent .absent).threshold = 150
        ∧ ∀ (v : JSValue) (t : ℚ),
            (validatePartialConfig v).threshold = some t → 0 ≤ t ∧ t ≤ 100) :=
  ⟨rfl, cliOverrides_bypass_validation .absent .absent { threshold := some 150 } 150 rfl⟩

/-- C4: `loadConfig` is total and degrades gracefully: an unparseable or
unreadable dedicated config file is treated exactly like an absent one; the
result is the last-write-wins merge of the optional sources in fixed
precedence (manifest partial, then config-file partial, then caller
overrides); and when no source contributes content, the defaults come
back. -/
theorem loadConfig_graceful_degradation (cli : Option PartialUncovConfig)
    (pkgSt cfgSt : FileState) :
    loadConfig cli pkgSt .invalidJson = loadConfig cli pkgSt .absent
    ∧ loadConfig cli pkgSt .unreadable = loadConfig cli pkgSt .absent
    ∧ loadConfig cli pkgSt cfgSt
        = mergeConfigs (optToList (readPackageJsonConfig pkgSt)
            ++ optToList (readConfigFilePartial cfgSt) ++ optToList cli)
    ∧ (pkgSt.isContent = false → cfgSt.isContent = false →
        loadConfig none pkgSt cfgSt = DEFAULT_CONFIG) := by
  refine ⟨rfl, rfl, loadConfig_eq_merge cli pkgSt cfgSt, ?_⟩
  intro hp hc
  cases pkgSt <;> cases cfgSt <;> first
    | rfl
    | simp [FileState.isContent] at hp hc

/-- Witness for `loadConfig_graceful_degradation`: with an unreadable
manifest and an unparseable config file and no overrides, `loadConfig`
returns exactly the default configuration. -/
theorem loadConfig_graceful_degradation_witness :
    loadConfig none .unreadable .invalidJson = DEFAULT_CONFIG :=
  (loadConfig_graceful_degradation none .unreadable .invalidJson).2.2.2 rfl rfl

/-! ## Coverage model (`src/lib/coverage.ts`) -/

/-- `CoverageMetric` from `coverage.ts`: one coverage dimension. -/
structure CoverageMetric where
  total : ℚ
  covered : ℚ
  skipped : ℚ
  pct : ℚ
deriving DecidableEq

/-- `FileCoverage` from `coverage.ts`: coverage for one file (or the
synthetic total entry). -/
structure FileCoverage where
  lines : CoverageMetric
  statements : CoverageMetric
  functions : CoverageMetric
  branches : CoverageMetric
deriving DecidableEq

/-- `ParsedFileCoverage` from `coverage.ts`: the reporting projection. -/
structure ParsedFileCoverage where
  path : String
  linesPct : ℚ
  linesCovered : ℚ
  linesTotal : ℚ
deriving DecidableEq

/-- Whether an optional JS value is a number (`typeof x === "number"`;
`none` models `undefined`). -/
def isNumVal : Option JSValue → Bool
  | some (.num _) => true
  | _ => false

/-- `isValidCoverageMetric` from `coverage.ts`, taking the possibly-undefined
property value: a non-null object whose `total`, `covered` and `pct`
properties are numbers (`skipped` is not checked). -/
def isValidCoverageMetric : Option JSValue → Bool
  | some v =>
    isNonNullJsObject v && isNumVal (getField v "total")
      && isNumVal (getField v "covered") && isNumVal (getField v "pct")
  | none => false

/-- `isValidFileCoverage` from `coverage.ts`: a non-null object whose
`lines` property passes `isValidCoverageMetric`. -/
def isValidFileCoverage : Option JSValue → Bool
  | some v => isNonNullJsObject v && isValidCoverageMetric (getField v "lines")
  | none => false

/-- The three failure classes of `validateCoverageSummary` (thrown as
`Error`s in `coverage.ts`). -/
inductive CoverageError where
  | invalidShape
  | missingTotal
  | invalidFileEntry (key : String)
deriving DecidableEq

/-- The validation loop of `validateCoverageSummary`: the first key other
than `"total"` whose entry fails `isValidFileCoverage`, if any. -/
def firstInvalidEntry : List (String × JSValue) → Option String
  | [] => none
  | (k, v) :: rest =>
    if k ≠ "total" ∧ isValidFileCoverage (some v) = false then some k
    else firstInvalidEntry rest

/-- `validateCoverageSummary` from `coverage.ts`: shape check, `total`
check, then the per-entry loop; on success the input itself is returned. -/
def validateCoverageSummary (data : JSValue) : Except CoverageError JSValue :=
  if isNonNullJsObject data = false then .error .invalidShape
  else if isValidFileCoverage (getField data "total") = false then .error .missingTotal
  else
    match firstInvalidEntry (entriesOf data) with
    | some k => .error (.invalidFileEntry k)
    | none => .ok data

theorem firstInvalidEntry_isSome_iff (l : List (String × JSValue)) :
    (∃ k, firstInvalidEntry l = some k)
      ↔ ∃ k v, (k, v) ∈ l ∧ k ≠ "total" ∧ isValidFileCoverage (some v) = false := by
  induction l with
  | nil => simp [firstInvalidEntry]
  | cons e rest ih =>
    obtain ⟨k, v⟩ := e
    by_cases hk : k ≠ "total" ∧ isValidFileCoverage (some v) = false
    · simp only [firstInvalidEntry, if_pos hk]
      constructor
      · intro _
        exact ⟨k, v, List.mem_cons_self _ _, hk⟩
      · intro _
        exact ⟨k, rfl⟩
    · simp only [firstInvalidEntry, if_neg hk]
      rw [ih]
      constructor
      · rintro ⟨k', v', hmem, hprop⟩
        exact ⟨k', v', List.mem_cons_of_mem _ hmem, hprop⟩
      · rintro ⟨k', v', hmem, hprop⟩
        rcases List.mem_cons.mp hmem with heq | hmem'
        · obtain ⟨h1, h2⟩ := Prod.mk.injEq .. ▸ heq
          exact absurd ⟨h1 ▸ hprop.1, h2 ▸ hprop.2⟩ hk
        · exact ⟨k', v', hmem', hprop⟩

theorem firstInvalidEntry_eq_none_iff (l : List (String × JSValue)) :
    firstInvalidEntry l = none
      ↔ ∀ k v, (k, v) ∈ l → k ≠ "total" → isValidFileCoverage (some v) = true := by
  induction l with
  | nil => simp [firstInvalidEntry]
  | cons e rest ih =>
    obtain ⟨k, v⟩ := e
    by_cases hk : k ≠ "total" ∧ isValidFileCoverage (some v) = false
    · simp only [firstInvalidEntry, if_pos hk]
      constructor
      · intro hf; exact Option.noConfusion hf
      · intro hall
        exact absurd (hall k v (List.mem_cons_self _ _) hk.1) (by simp [hk.2])
    · simp only [firstInvalidEntry, if_neg hk]
      rw [ih]
      constructor
      · intro hall k' v' hmem hk'
        rcases List.mem_cons.mp hmem with heq | hmem'
        · obtain ⟨h1, h2⟩ := Prod.mk.injEq .. ▸ heq
          subst h1; subst h2
          rcases Decidable.not_and_iff_or_not.mp hk with hkk | hvv
          · exact absurd hk' hkk
          · simpa using hvv
        · exact hall k' v' hmem' hk'
      · intro hall k' v' hmem hk'
        exact hall k' v' (List.mem_cons_of_mem _ hmem) hk'

/-- C2: `validateCoverageSummary` fails with `InvalidShape` exactly when the
input is not a non-null object; otherwise with `MissingTotal` exactly when
the `total` property fails `isValidFileCoverage`; otherwise with
`InvalidFileEntry(key)` exactly when some key other than `"total"` has an
entry failing `isValidFileCoverage`; and it succeeds — returning the input
value itself, unchanged — exactly when none of those hold. -/
theorem validateCoverageSummary_characterization (data : JSValue) :
    (validateCoverageSummary data = .error .invalidShape
      ↔ isNonNullJsObject data = false)
    ∧ (validateCoverageSummary data = .error .missingTotal
      ↔ isNonNullJsObject data = true
        ∧ isValidFileCoverage (getField data "total") = false)
    ∧ ((∃ k, validateCoverageSummary data = .error (.invalidFileEntry k))
      ↔ isNonNullJsObject data = true
        ∧ isValidFileCoverage (getField data "total") = true
        ∧ ∃ k v, (k, v) ∈ entriesOf data ∧ k ≠ "total"
            ∧ isValidFileCoverage (some v) = false)
    ∧ (validateCoverageSummary data = .ok data
      ↔ isNonNullJsObject data = true
        ∧ isValidFileCoverage (getField data "total") = true
        ∧ ∀ k v, (k, v) ∈ entriesOf data → k ≠ "total"
            → isValidFileCoverage (some v) = true)
    ∧ (∀ out, validateCoverageSummary data = .ok out → out = data) := by
  unfold validateCoverageSummary
  by_cases hshape : isNonNullJsObject data = false
  · simp [hshape]
  · rw [if_neg hshape]
    replace hshape : isNonNullJsObject data = true := by
      cases h : isNonNullJsObject data
      · exact absurd h hshape
      · rfl
    by_cases htotal : isValidFileCoverage (getField data "total") = false
    · simp [htotal, hshape]
    · rw [if_neg htotal]
      replace htotal : isValidFileCoverage (getField data "total") = true := by
        cases h : isValidFileCoverage (getField data "total")
        · exact absurd h htotal
        · rfl
      cases hloop : firstInvalidEntry (entriesOf data) with
      | some k =>
        have hsome : ∃ k', firstInvalidEntry (entriesOf data) = some k' := ⟨k, hloop⟩
        rw [firstInvalidEntry_isSome_iff] at hsome
        refine ⟨by simp [hshape], by simp [hshape, htotal], ?_, ?_, by simp⟩
        · simp only [Except.error.injEq]
          constructor
          · intro _; exact ⟨hshape, htotal, hsome⟩
          · intro _; exact ⟨k, by simp⟩
        · constructor
          · intro hf; exact Except.noConfusion hf
          · rintro ⟨_, _, hall⟩
            obtain ⟨k', v', hmem, hne, hbad⟩ := hsome
            exact absurd (hall k' v' hmem hne) (by simp [hbad])
      | none =>
        have hnone := (firstInvalidEntry_eq_none_iff (entriesOf data)).mp hloop
        refine ⟨by simp [hshape], by simp [hshape, htotal], ?_, ?_, ?_⟩
        · constructor
          · rintro ⟨k, hf⟩; exact Except.noConfusion hf
          · rintro ⟨_, _, k', v', hmem, hne, hbad⟩
            exact absurd (hnone k' v' hmem hne) (by simp [hbad])
        · exact ⟨fun _ => ⟨hshape, htotal, hnone⟩, fun _ => rfl⟩
        · intro out hout
          cases hout
          rfl

/-- `filterBelowThreshold` from `coverage.ts`: iterate the summary entries,
skip the `total` key, and keep (projected) every file whose `lines.pct` is
at or below the threshold. The summary is its `Object.entries` view: an
insertion-ordered list of key/coverage pairs. -/
def filterBelowThreshold (summary : List (String × FileCoverage)) (threshold : ℚ) :
    List ParsedFileCoverage :=
  match summary with
  | [] => []
  | (path, coverage) :: rest =>
    if path = "total" then filterBelowThreshold rest threshold
    else if coverage.lines.pct ≤ threshold then
      { path := path
        linesPct := coverage.lines.pct
        linesCovered := coverage.lines.covered
        linesTotal := coverage.lines.total } :: filterBelowThreshold rest threshold
    else filterBelowThreshold rest threshold

/-- C1: `filterBelowThreshold` returns exactly the entries whose key is not
`"total"` and whose `lines.pct` is at or below the threshold (inclusive),
in order, each projected to `ParsedFileCoverage`; the `"total"` entry is
never included regardless of its percentage. -/
theorem filterBelowThreshold_characterization
    (summary : List (String × FileCoverage)) (threshold : ℚ) :
    filterBelowThreshold summary threshold
      = (summary.filter fun e =>
            decide (e.1 ≠ "total") && decide (e.2.lines.pct ≤ threshold)).map
          fun e =>
            { path := e.1
              linesPct := e.2.lines.pct
              linesCovered := e.2.lines.covered
              linesTotal := e.2.lines.total } := by
  induction summary with
  | nil => rfl
  | cons e rest ih =>
    obtain ⟨path, coverage⟩ := e
    by_cases hp : path = "total"
    · simp [filterBelowThreshold, hp, ih]
    · by_cases hq : coverage.lines.pct ≤ threshold
      · simp [filterBelowThreshold, hp, hq, ih]
      · simp [filterBelowThreshold, hp, hq, ih]

/-- The insertion step of a stable ascending insertion sort by `linesPct`:
an element is placed before the first strictly-greater element, so elements
with equal percentages keep their input order. Models the stable
`Array.prototype.sort` with comparator `(a, b) => a.linesPct - b.linesPct`. -/
def insertByPct (x : ParsedFileCoverage) : List ParsedFileCoverage → List ParsedFileCoverage
  | [] => [x]
  | y :: ys => if x.linesPct ≤ y.linesPct then x :: y :: ys else y :: insertByPct x ys

/-- `sortByPercentage` from `coverage.ts`: a new list sorted ascending by
`linesPct` (stable), leaving the input untouched. -/
def sortByPercentage (files : List ParsedFileCoverage) : List ParsedFileCoverage :=
  match files with
  | [] => []
  | f :: fs => insertByPct f (sortByPercentage fs)

theorem insertByPct_length (x : ParsedFileCoverage) (l : List ParsedFileCoverage) :
    (insertByPct x l).length = l.length + 1 := by
  induction l with
  | nil => rfl
  | cons y ys ih =>
    by_cases h : x.linesPct ≤ y.linesPct
    · simp [insertByPct, h]
    · simp [insertByPct, h, ih]

theorem sortByPercentage_length (l : List ParsedFileCoverage) :
    (sortByPercentage l).length = l.length := by
  induction l with
  | nil => rfl
  | cons f fs ih => simp [sortByPercentage, insertByPct_length, ih]

/-! ## Report formatter (`src/utils/format.ts`)

Number rendering: JavaScript prints a number via the shortest decimal that
round-trips; every number occurring in coverage summaries is a terminating
decimal, for which that output is the plain decimal expansion modelled
below. Color decoration is identity here (out of scope per the spec). -/

/-- `String.prototype.padStart(n)` with spaces. -/
def padStartStr (s : String) (n : Nat) : String :=
  if n ≤ s.length then s else String.mk (List.replicate (n - s.length) ' ') ++ s

/-- `Array.prototype.join(sep)`. -/
def joinSep (sep : String) : List String → String
  | [] => ""
  | [s] => s
  | s :: rest => s ++ sep ++ joinSep sep rest

/-- Decimal digits of the fractional part (fuel-bounded; empty once the
remainder reaches zero, which happens for every terminating decimal). -/
def fracDigits : Nat → ℚ → List Char
  | 0, _ => []
  | fuel + 1, r =>
    if r = 0 then []
    else
      let d := ⌊r * 10⌋
      Nat.digitChar d.toNat :: fracDigits fuel (r * 10 - d)

/-- JS number-to-string (template literal / `toString`) for terminating
decimals: optional sign, integer part, and the fractional expansion when
non-zero. -/
def jsNumToString (q : ℚ) : String :=
  let sign := if q < 0 then "-" else ""
  let a := if q < 0 then -q else q
  let fr := fracDigits 20 (a - ⌊a⌋)
  sign ++ toString (⌊a⌋.toNat) ++ (if fr.isEmpty then "" else "." ++ String.mk fr)

/-- `Number.prototype.toFixed(2)`: round to two decimals (nearest), render
with exactly two fraction digits. -/
def toFixed2 (q : ℚ) : String :=
  let n : ℤ := round (q * 100)
  let sign := if n < 0 then "-" else ""
  let m := n.natAbs
  sign ++ toString (m / 100) ++ "." ++ (if m % 100 < 10 then "0" else "") ++ toString (m % 100)

/-- `formatPercent` from `format.ts`: two-decimal percentage padded to a
six-character field, then a percent sign. -/
def formatPercent (pct : ℚ) : String :=
  padStartStr (toFixed2 pct) 6 ++ "%"

/-- `formatLines` from `format.ts`: covered/total counts each right-aligned
to four characters. -/
def formatLines (covered total : ℚ) : String :=
  "LH " ++ padStartStr (jsNumToString covered) 4 ++ "/LF " ++ padStartStr (jsNumToString total) 4

/-- `formatFileLine` from `format.ts` (color decoration is identity). -/
def formatFileLine (file : ParsedFileCoverage) : String :=
  formatPercent file.linesPct ++ "  " ++ formatLines file.linesCovered file.linesTotal
    ++ "   " ++ file.path

/-- `formatReport` from `format.ts`: the no-findings message, or a header
plus a blank line plus one indented file line per entry. -/
def formatReport (files : List ParsedFileCoverage) (threshold : ℚ) : String :=
  if files.length = 0 then
    "No files at or below " ++ jsNumToString threshold ++ "% line coverage."
  else
    let header := "Files at or below " ++ jsNumToString threshold ++ "% line coverage: "
      ++ toString files.length ++ "\n"
    header ++ "\n" ++ joinSep "\n" (files.map fun f => "  " ++ formatFileLine f)

/-- `JSON.stringify` string escaping for the characters relevant here. -/
def jsonEscapeChar (c : Char) : List Char :=
  if c = '"' then ['\\', '"']
  else if c = '\\' then ['\\', '\\']
  else if c = '\n' then ['\\', 'n']
  else [c]

/-- A JSON string literal. -/
def jsonString (s : String) : String :=
  "\"" ++ String.mk (s.data.foldr (fun c acc => jsonEscapeChar c ++ acc) []) ++ "\""

/-- One file entry of the JSON report, as `JSON.stringify(_, null, 2)`
renders it at depth two. -/
def jsonFileObject (f : ParsedFileCoverage) : String :=
  "    \x7b\n      \"path\": " ++ jsonString f.path
    ++ ",\n      \"linesPct\": " ++ jsNumToString f.linesPct
    ++ ",\n      \"linesCovered\": " ++ jsNumToString f.linesCovered
    ++ ",\n      \"linesTotal\": " ++ jsNumToString f.linesTotal
    ++ "\n    \x7d"

/-- `formatReportJson` from `format.ts`: the 2-space-indented JSON object
with `threshold`, `count` and `files`. -/
def formatReportJson (files : List ParsedFileCoverage) (threshold : ℚ) : String :=
  "\x7b\n  \"threshold\": " ++ jsNumToString threshold
    ++ ",\n  \"count\": " ++ toString files.length
    ++ ",\n  \"files\": "
    ++ (if files.isEmpty then "[]"
        else "[\n" ++ joinSep ",\n" (files.map jsonFileObject) ++ "\n  ]")
    ++ "\n\x7d"

/-! ## Report orchestrator (`src/commands/report.ts`) -/

/-- The error message texts thrown by `validateCoverageSummary`. -/
def coverageErrorMessage : CoverageError → String
  | .invalidShape => "Coverage summary must be an object"
  | .missingTotal => "Coverage summary missing valid \"total\" field"
  | .invalidFileEntry k => "Invalid coverage data for file: " ++ k

/-- `parseCoverageSummary` from `coverage.ts`: the `readJson` outcome
(read/parse failures already as error messages) followed by
`validateCoverageSummary`, whose failures become their message text. -/
def parseCoverageSummary (readResult : Except String JSValue) : Except String JSValue :=
  match readResult with
  | .error e => .error e
  | .ok data =>
    match validateCoverageSummary data with
    | .error ce => .error (coverageErrorMessage ce)
    | .ok summary => .ok summary

/-- A JS number property read as ℚ (0 for anything else; validation
guarantees the fields the program reads are present numbers). -/
def numOrZero : Option JSValue → ℚ
  | some (.num q) => q
  | _ => 0

/-- Property reads of one `CoverageMetric` from its JSON object. -/
def metricOfJS (v : Option JSValue) : CoverageMetric :=
  match v with
  | some u =>
    { total := numOrZero (getField u "total")
      covered := numOrZero (getField u "covered")
      skipped := numOrZero (getField u "skipped")
      pct := numOrZero (getField u "pct") }
  | none => { total := 0, covered := 0, skipped := 0, pct := 0 }

/-- Property reads of one `FileCoverage` from its JSON object. -/
def fileCoverageOfJS (v : JSValue) : FileCoverage :=
  { lines := metricOfJS (getField v "lines")
    statements := metricOfJS (getField v "statements")
    functions := metricOfJS (getField v "functions")
    branches := metricOfJS (getField v "branches") }

/-- The validated summary seen through the TS `as CoverageSummary` cast:
its entries with typed property reads. -/
def toSummary (v : JSValue) : List (String × FileCoverage) :=
  (entriesOf v).map fun e => (e.1, fileCoverageOfJS e.2)

/-- `ReportOptions` from `report.ts` (CLI flags). -/
structure ReportOptions where
  threshold : Option ℚ := none
  fail : Option Bool := none
  json : Bool := false
  coveragePath : Option String := none

/-- The overrides object `reportCommand` builds from its options: always the
three properties, never `exclude`. -/
def reportCliOverrides (options : ReportOptions) : PartialUncovConfig :=
  { threshold := options.threshold
    exclude := none
    failOnLow := options.fail
    coveragePath := options.coveragePath }

/-- The configuration `reportCommand` resolves. -/
def resolvedReportConfig (options : ReportOptions) (pkgSt cfgSt : FileState) : UncovConfig :=
  loadConfig (some (reportCliOverrides options)) pkgSt cfgSt

/-- The not-found error output of `reportCommand` (JSON to stdout or text to
stderr; the streams are merged into one observed string here). -/
def notFoundOutput (json : Bool) (path : String) : String :=
  if json then
    "\x7b\n  \"error\": \"Coverage file not found\",\n  \"path\": " ++ jsonString path ++ "\n\x7d"
  else
    "Error: Coverage file not found: " ++ path
      ++ "\nRun your test coverage command first (e.g., \x27pnpm test:coverage\x27)"

/-- The parse-failure error output of `reportCommand`. -/
def parseFailOutput (json : Bool) (message : String) : String :=
  if json then
    "\x7b\n  \"error\": \"Failed to parse coverage file\",\n  \"details\": "
      ++ jsonString message ++ "\n\x7d"
  else
    "Error: Failed to parse coverage file: " ++ message

/-- `reportCommand` from `report.ts`, returning (exit code, printed output).
File-system interaction is abstracted by the two config `FileState`s, the
existence of the resolved coverage file, and the `readJson` outcome for it
(path resolution itself is out of scope, per spec section 4.1). -/
def reportCommand (options : ReportOptions) (pkgSt cfgSt : FileState)
    (coverageFileExists : Bool) (readResult : Except String JSValue) : Nat × String :=
  let config := resolvedReportConfig options pkgSt cfgSt
  if coverageFileExists = false then
    (2, notFoundOutput options.json config.coveragePath)
  else
    match parseCoverageSummary readResult with
    | .error message => (2, parseFailOutput options.json message)
    | .ok summary =>
      let filesBelow := filterBelowThreshold (toSummary summary) config.threshold
      let sortedFiles := sortByPercentage filesBelow
      let out :=
        if options.json then formatReportJson sortedFiles config.threshold
        else formatReport sortedFiles config.threshold
      if 0 < sortedFiles.length ∧ config.failOnLow = true then (1, out) else (0, out)

/-- C3: the orchestrator exit code is 2 exactly when the coverage file does
not exist or `parseCoverageSummary` propagates a failure; 1 exactly when it
exists, parsing succeeds, the filtered list is non-empty and the resolved
`failOnLow` is set; 0 in every remaining case. -/
theorem reportCommand_exit_codes (options : ReportOptions) (pkgSt cfgSt : FileState)
    (coverageFileExists : Bool) (readResult : Except String JSValue) :
    ((reportCommand options pkgSt cfgSt coverageFileExists readResult).1 = 2
      ↔ coverageFileExists = false ∨ ∃ e, parseCoverageSummary readResult = .error e)
    ∧ ((reportCommand options pkgSt cfgSt coverageFileExists readResult).1 = 1
      ↔ coverageFileExists = true
        ∧ ∃ s, parseCoverageSummary readResult = .ok s
          ∧ filterBelowThreshold (toSummary s)
              (resolvedReportConfig options pkgSt cfgSt).threshold ≠ []
          ∧ (resolvedReportConfig options pkgSt cfgSt).failOnLow = true)
    ∧ ((reportCommand options pkgSt cfgSt coverageFileExists readResult).1 = 0
      ↔ coverageFileExists = true
        ∧ ∃ s, parseCoverageSummary readResult = .ok s
          ∧ (filterBelowThreshold (toSummary s)
                (resolvedReportConfig options pkgSt cfgSt).threshold = []
              ∨ (resolvedReportConfig options pkgSt cfgSt).failOnLow = false)) := by
  cases coverageFileExists with
  | false => simp [reportCommand]
  | true =>
    cases hp : parseCoverageSummary readResult with
    | error e => simp [reportCommand, hp]
    | ok s =>
      have hlen := sortByPercentage_length
        (filterBelowThreshold (toSummary s) (resolvedReportConfig options pkgSt cfgSt).threshold)
      by_cases hne : filterBelowThreshold (toSummary s)
          (resolvedReportConfig options pkgSt cfgSt).threshold = []
      · simp [reportCommand, hp, hne, sortByPercentage]
      · by_cases hfail : (resolvedReportConfig options pkgSt cfgSt).failOnLow = true
        · have hz : 0 < (sortByPercentage (filterBelowThreshold (toSummary s)
              (resolvedReportConfig options pkgSt cfgSt).threshold)).length
              ∧ (resolvedReportConfig options pkgSt cfgSt).failOnLow = true := by
            rw [hlen]
            exact ⟨List.length_pos.mpr hne, hfail⟩
          simp [reportCommand, hp, hz, hne, hfail]
        · have hz : ¬ (0 < (sortByPercentage (filterBelowThreshold (toSummary s)
              (resolvedReportConfig options pkgSt cfgSt).threshold)).length
              ∧ (resolvedReportConfig options pkgSt cfgSt).failOnLow = true) := by
            intro hcontra
            exact hfail hcontra.2
          simp [reportCommand, hp, hz, hne, hfail]

/-- The filter/sort/format pipeline of the report path, collecting every
observable the orchestrator produces from a validated summary: the filtered
list, its sorted order, the text report and the JSON report. -/
def reportPipeline (config : UncovConfig) (summary : List (String × FileCoverage)) :
    List ParsedFileCoverage × List ParsedFileCoverage × String × String :=
  let filesBelow := filterBelowThreshold summary config.threshold
  let sortedFiles := sortByPercentage filesBelow
  (filesBelow, sortedFiles,
    formatReport sortedFiles config.threshold,
    formatReportJson sortedFiles config.threshold)

/-- C9: the `exclude` configuration field is inert in the reporting
pipeline: two resolved configurations differing only in `exclude` produce
identical filtered lists, sorted orders, and text and JSON outputs. -/
theorem exclude_field_inert (config : UncovConfig) (e : List String)
    (summary : List (String × FileCoverage)) :
    reportPipeline { config with exclude := e } summary = reportPipeline config summary := by
  cases config
  rfl

/-! ## Path model (`src/utils/fs.ts`, node `path` on POSIX)

`resolve` and `relative` model node's `path.resolve`/`path.relative` for an
absolute base directory (a relative base would be resolved against the
process working directory, which is out of scope). Paths are strings;
segment lists are obtained by splitting on `/` and normalizing `.`/`..`
(with `..` at the root dropped, as absolute normalization does). -/

/-- Split a character list at every `/` (keeping empty pieces). -/
def splitOnSlash : List Char → List (List Char)
  | [] => [[]]
  | c :: rest =>
    let r := splitOnSlash rest
    if c = '/' then [] :: r else r.modifyHead fun s => c :: s

/-- Drop empty segments (repeated separators contribute nothing). -/
def dropEmpty : List String → List String
  | [] => []
  | s :: rest => if s = "" then dropEmpty rest else s :: dropEmpty rest

/-- The non-empty `/`-separated segments of a path string. -/
def splitPath (s : String) : List String :=
  dropEmpty ((splitOnSlash s.data).map fun cs => String.mk cs)

/-- One step of absolute-path normalization: `.` is dropped, `..` pops the
last segment (a no-op at the root), anything else is appended. -/
def normStep (acc : List String) (seg : String) : List String :=
  if seg = "." then acc
  else if seg = ".." then acc.dropLast
  else acc ++ [seg]

/-- Normalize a segment list as an absolute path. -/
def normalizeSegs (segs : List String) : List String :=
  segs.foldl normStep []

/-- `path.isAbsolute` on POSIX: starts with `/`. -/
def isAbsolute (s : String) : Bool :=
  match s.data with
  | '/' :: _ => true
  | _ => false

/-- The normalized segments of node's `path.resolve(base, target)` for an
absolute `base`. -/
def resolveSegs (base target : String) : List String :=
  if isAbsolute target then normalizeSegs (splitPath target)
  else normalizeSegs (splitPath base ++ splitPath target)

/-- Node's `path.resolve(base, target)` for an absolute `base` (POSIX). -/
def resolve (base target : String) : String :=
  "/" ++ joinSep "/" (resolveSegs base target)

/-- Length of the common segment prefix of two paths. -/
def commonPrefixLen : List String → List String → Nat
  | a :: as, b :: bs => if a = b then commonPrefixLen as bs + 1 else 0
  | _, _ => 0

/-- Node's `path.relative(fromPath, toPath)` for absolute arguments (POSIX):
one `..` per segment of `fromPath` past the common prefix, then the
remaining segments of `toPath`. -/
def relative (fromPath toPath : String) : String :=
  joinSep "/"
    (List.replicate
        ((normalizeSegs (splitPath fromPath)).length
          - commonPrefixLen (normalizeSegs (splitPath fromPath))
              (normalizeSegs (splitPath toPath))) ".."
      ++ (normalizeSegs (splitPath toPath)).drop
          (commonPrefixLen (normalizeSegs (splitPath fromPath))
            (normalizeSegs (splitPath toPath))))

/-- `String.prototype.startsWith("..")`: the first two characters are dots. -/
def startsWithDotDot (s : String) : Bool :=
  match s.data with
  | '.' :: '.' :: _ => true
  | _ => false

/-- `validatePath` from `fs.ts`: resolve the target against the base, take
the relative offset from the base, and reject when that offset starts with
the characters `..` or is absolute. -/
def validatePath (targetPath baseDir : String) : Except String String :=
  let resolved := resolve baseDir targetPath
  let relativePath := relative baseDir resolved
  if startsWithDotDot relativePath || isAbsolute relativePath then
    .error ("Path \"" ++ targetPath ++ "\" is outside allowed directory")
  else .ok resolved

/-- Segment-list prefix test (Boolean). -/
def segsPrefixOf : List String → List String → Bool
  | [], _ => true
  | _ :: _, [] => false
  | a :: as, b :: bs => if a = b then segsPrefixOf as bs else false

/-- The spec notion of the target lying inside the base directory: the
normalized segments of the base are a prefix of those of the path. -/
def isWithin (base p : String) : Bool :=
  segsPrefixOf (normalizeSegs (splitPath base)) (normalizeSegs (splitPath p))

/-- A piece produced by `splitPath`: non-empty and slash-free. -/
def goodSeg (s : String) : Prop := s ≠ "" ∧ '/' ∉ s.data

/-- A segment surviving normalization: additionally not `.` or `..`. -/
def cleanSeg (s : String) : Prop :=
  s ≠ "" ∧ s ≠ "." ∧ s ≠ ".." ∧ '/' ∉ s.data

theorem splitOnSlash_ne_nil (cs : List Char) : splitOnSlash cs ≠ [] := by
  cases cs with
  | nil => simp [splitOnSlash]
  | cons c rest =>
    simp only [splitOnSlash]
    by_cases h : c = '/'
    · simp [h]
    · simp only [if_neg h]
      cases hr : splitOnSlash rest with
      | nil => exact absurd hr (splitOnSlash_ne_nil rest)
      | cons s ss => simp [List.modifyHead]

theorem mem_splitOnSlash_no_slash (cs : List Char) (piece : List Char)
    (hmem : piece ∈ splitOnSlash cs) : '/' ∉ piece := by
  induction cs generalizing piece with
  | nil =>
    simp [splitOnSlash] at hmem
    simp [hmem]
  | cons c rest ih =>
    simp only [splitOnSlash] at hmem
    by_cases h : c = '/'
    · rw [if_pos h] at hmem
      rcases List.mem_cons.mp hmem with heq | hmem'
      · simp [heq]
      · exact ih piece hmem'
    · rw [if_neg h] at hmem
      cases hr : splitOnSlash rest with
      | nil => exact absurd hr (splitOnSlash_ne_nil rest)
      | cons s ss =>
        rw [hr] at hmem
        simp only [List.modifyHead] at hmem
        rcases List.mem_cons.mp hmem with heq | hmem'
        · subst heq
          intro hin
          rcases List.mem_cons.mp hin with hc | hs
          · exact h hc.symm
          · exact ih s (hr ▸ List.mem_cons_self s ss) hs
        · exact ih piece (hr ▸ List.mem_cons_of_mem s hmem')

theorem mem_splitPath_good (s : String) (seg : String) (hmem : seg ∈ splitPath s) :
    goodSeg seg := by
  unfold splitPath at hmem
  have hne : ∀ l : List String, seg ∈ dropEmpty l → seg ∈ l ∧ seg ≠ "" := by
    intro l
    induction l with
    | nil => intro h; exact absurd h (by simp [dropEmpty])
    | cons x xs ih =>
      intro h
      unfold dropEmpty at h
      by_cases hx : x = ""
      · rw [if_pos hx] at h
        obtain ⟨h1, h2⟩ := ih h
        exact ⟨List.mem_cons_of_mem x h1, h2⟩
      · rw [if_neg hx] at h
        rcases List.mem_cons.mp h with heq | h'
        · exact ⟨heq ▸ List.mem_cons_self x xs, heq ▸ hx⟩
        · obtain ⟨h1, h2⟩ := ih h'
          exact ⟨List.mem_cons_of_mem x h1, h2⟩
  obtain ⟨hmem', hne'⟩ := hne _ hmem
  refine ⟨hne', ?_⟩
  obtain ⟨cs, hcs, heq⟩ := List.mem_map.mp hmem'
  have := mem_splitOnSlash_no_slash s.data cs hcs
  rw [← heq]
  exact this

theorem mem_of_mem_dropLast {α : Type} (l : List α) (x : α)
    (h : x ∈ l.dropLast) : x ∈ l := by
  induction l with
  | nil => simp at h
  | cons a as ih =>
    cases as with
    | nil => simp at h
    | cons b bs =>
      rw [List.dropLast_cons₂] at h
      rcases List.mem_cons.mp h with heq | h'
      · exact heq ▸ List.mem_cons_self a _
      · exact List.mem_cons_of_mem a (ih h')

theorem foldl_normStep_clean (l : List String) (acc : List String)
    (hl : ∀ s ∈ l, goodSeg s) (hacc : ∀ s ∈ acc, cleanSeg s) :
    ∀ s ∈ l.foldl normStep acc, cleanSeg s := by
  induction l generalizing acc with
  | nil => exact fun s hs => hacc s hs
  | cons x xs ih =>
    simp only [List.foldl_cons]
    apply ih
    · exact fun s hs => hl s (List.mem_cons_of_mem x hs)
    · intro s hs
      unfold normStep at hs
      by_cases hx1 : x = "."
      · rw [if_pos hx1] at hs
        exact hacc s hs
      · rw [if_neg hx1] at hs
        by_cases hx2 : x = ".."
        · rw [if_pos hx2] at hs
          exact hacc s (mem_of_mem_dropLast acc s hs)
        · rw [if_neg hx2] at hs
          rcases List.mem_append.mp hs with h1 | h2
          · exact hacc s h1
          · have hsx : s = x := by simpa using h2
            obtain ⟨hg1, hg2⟩ := hl x (List.mem_cons_self x xs)
            exact hsx ▸ ⟨hg1, hx1, hx2, hg2⟩

theorem normalizeSegs_clean (l : List String) (hl : ∀ s ∈ l, goodSeg s) :
    ∀ s ∈ normalizeSegs l, cleanSeg s :=
  foldl_normStep_clean l [] hl (by simp)

theorem foldl_normStep_of_plain (l : List String) (acc : List String)
    (hl : ∀ s ∈ l, s ≠ "." ∧ s ≠ "..") :
    l.foldl normStep acc = acc ++ l := by
  induction l generalizing acc with
  | nil => simp
  | cons x xs ih =>
    obtain ⟨h1, h2⟩ := hl x (List.mem_cons_self x xs)
    simp only [List.foldl_cons, normStep, if_neg h1, if_neg h2]
    rw [ih (acc ++ [x]) (fun s hs => hl s (List.mem_cons_of_mem x hs))]
    simp

theorem normalizeSegs_id_of_clean (l : List String) (hl : ∀ s ∈ l, cleanSeg s) :
    normalizeSegs l = l := by
  unfold normalizeSegs
  rw [foldl_normStep_of_plain l [] fun s hs => ⟨(hl s hs).2.1, (hl s hs).2.2.1⟩]
  simp

theorem splitOnSlash_append_no_slash (cs ds : List Char) (h : '/' ∉ cs) :
    splitOnSlash (cs ++ ds) = (splitOnSlash ds).modifyHead fun s => cs ++ s := by
  induction cs with
  | nil =>
    simp only [List.nil_append]
    cases hr : splitOnSlash ds with
    | nil => exact absurd hr (splitOnSlash_ne_nil ds)
    | cons s ss => simp [List.modifyHead]
  | cons c cs ih =>
    have hc : ¬ c = '/' := fun hh => h (hh ▸ List.mem_cons_self c cs)
    have h' : '/' ∉ cs := fun hh => h (List.mem_cons_of_mem c hh)
    simp only [List.cons_append, splitOnSlash, if_neg hc]
    rw [List.append_eq, ih h']
    cases hr : splitOnSlash ds with
    | nil => exact absurd hr (splitOnSlash_ne_nil ds)
    | cons s ss => simp [List.modifyHead]

theorem splitOnSlash_of_no_slash (cs : List Char) (h : '/' ∉ cs) :
    splitOnSlash cs = [cs] := by
  have := splitOnSlash_append_no_slash cs [] h
  simpa [splitOnSlash, List.modifyHead] using this

theorem dropEmpty_cons_empty (xs : List String) : dropEmpty ("" :: xs) = dropEmpty xs := by
  simp [dropEmpty]

theorem splitJoin (l : List String) (hl : ∀ s ∈ l, goodSeg s) :
    dropEmpty ((splitOnSlash (joinSep "/" l).data).map fun cs => String.mk cs) = l := by
  induction l with
  | nil => rfl
  | cons a rest ih =>
    cases rest with
    | nil =>
      obtain ⟨ha1, ha2⟩ := hl a (List.mem_cons_self a [])
      show dropEmpty ((splitOnSlash a.data).map fun cs => String.mk cs) = [a]
      rw [splitOnSlash_of_no_slash a.data ha2]
      simp only [List.map_cons, List.map_nil]
      have hmk : String.mk a.data = a := rfl
      rw [hmk]
      simp [dropEmpty, ha1]
    | cons b bs =>
      obtain ⟨ha1, ha2⟩ := hl a (List.mem_cons_self a (b :: bs))
      show dropEmpty ((splitOnSlash
          (a ++ "/" ++ joinSep "/" (b :: bs)).data).map fun cs => String.mk cs) = a :: b :: bs
      have hdata : (a ++ "/" ++ joinSep "/" (b :: bs)).data
          = a.data ++ '/' :: (joinSep "/" (b :: bs)).data := by
        rw [String.data_append, String.data_append]
        simp
      rw [hdata, splitOnSlash_append_no_slash a.data _ ha2]
      have hsl : splitOnSlash ('/' :: (joinSep "/" (b :: bs)).data)
          = [] :: splitOnSlash (joinSep "/" (b :: bs)).data := by
        simp [splitOnSlash]
      rw [hsl]
      simp only [List.modifyHead, List.append_nil, List.map_cons]
      have hmk : String.mk a.data = a := rfl
      rw [hmk]
      simp only [dropEmpty, if_neg ha1]
      congr 1
      exact ih fun s hs => hl s (List.mem_cons_of_mem a hs)

theorem splitPath_roundtrip (l : List String) (hl : ∀ s ∈ l, goodSeg s) :
    splitPath ("/" ++ joinSep "/" l) = l := by
  unfold splitPath
  have hdata : ("/" ++ joinSep "/" l).data = '/' :: (joinSep "/" l).data := by
    rw [String.data_append]
    rfl
  rw [hdata]
  have hsl : splitOnSlash ('/' :: (joinSep "/" l).data)
      = [] :: splitOnSlash (joinSep "/" l).data := by
    simp [splitOnSlash]
  rw [hsl]
  simp only [List.map_cons]
  have hmk : String.mk ([] : List Char) = "" := rfl
  rw [hmk, dropEmpty_cons_empty]
  exact splitJoin l hl

theorem commonPrefixLen_le (f t : List String) : commonPrefixLen f t ≤ f.length := by
  induction f generalizing t with
  | nil => simp [commonPrefixLen]
  | cons a as ih =>
    cases t with
    | nil => simp [commonPrefixLen]
    | cons b bs =>
      by_cases h : a = b
      · simp only [commonPrefixLen, if_pos h, List.length_cons]
        exact Nat.succ_le_succ (ih bs)
      · simp [commonPrefixLen, if_neg h]

theorem commonPrefixLen_eq_length_iff (f t : List String) :
    commonPrefixLen f t = f.length ↔ segsPrefixOf f t = true := by
  induction f generalizing t with
  | nil => simp [commonPrefixLen, segsPrefixOf]
  | cons a as ih =>
    cases t with
    | nil => simp [commonPrefixLen, segsPrefixOf]
    | cons b bs =>
      by_cases h : a = b
      · simp only [commonPrefixLen, if_pos h, segsPrefixOf, List.length_cons]
        constructor
        · intro hh
          exact (ih bs).mp (by omega)
        · intro hh
          have := (ih bs).mpr hh
          omega
      · simp [commonPrefixLen, if_neg h, segsPrefixOf]

theorem startsWithDotDot_joinSep_dotdot (rest : List String) :
    startsWithDotDot (joinSep "/" (".." :: rest)) = true := by
  cases rest with
  | nil => rfl
  | cons s ss =>
    show startsWithDotDot ((".." ++ "/") ++ joinSep "/" (s :: ss)) = true
    unfold startsWithDotDot
    rw [String.data_append, String.data_append]
    rfl

theorem resolveSegs_clean (base target : String) :
    ∀ s ∈ resolveSegs base target, cleanSeg s := by
  unfold resolveSegs
  by_cases ha : isAbsolute target = true
  · rw [if_pos ha]
    exact normalizeSegs_clean _ fun s hs => mem_splitPath_good target s hs
  · rw [if_neg ha]
    refine normalizeSegs_clean _ fun s hs => ?_
    rcases List.mem_append.mp hs with h1 | h2
    · exact mem_splitPath_good base s h1
    · exact mem_splitPath_good target s h2

theorem normalizeSegs_splitPath_resolve (base target : String) :
    normalizeSegs (splitPath (resolve base target)) = resolveSegs base target := by
  have hclean := resolveSegs_clean base target
  have hgood : ∀ s ∈ resolveSegs base target, goodSeg s :=
    fun s hs => ⟨(hclean s hs).1, (hclean s hs).2.2.2⟩
  have hsplit : splitPath (resolve base target) = resolveSegs base target :=
    splitPath_roundtrip _ hgood
  rw [hsplit]
  exact normalizeSegs_id_of_clean _ hclean

theorem validatePath_errors_outside (base target : String)
    (h : isWithin base (resolve base target) = false) :
    (validatePath target base).isOk = false := by
  unfold isWithin at h
  rw [normalizeSegs_splitPath_resolve base target] at h
  have hk_ne : commonPrefixLen (normalizeSegs (splitPath base)) (resolveSegs base target)
      ≠ (normalizeSegs (splitPath base)).length := by
    intro he
    rw [commonPrefixLen_eq_length_iff] at he
    rw [he] at h
    exact Bool.noConfusion h
  have hk_lt : commonPrefixLen (normalizeSegs (splitPath base)) (resolveSegs base target)
      < (normalizeSegs (splitPath base)).length :=
    Nat.lt_of_le_of_ne (commonPrefixLen_le _ _) hk_ne
  obtain ⟨m, hm⟩ : ∃ m, (normalizeSegs (splitPath base)).length
      - commonPrefixLen (normalizeSegs (splitPath base)) (resolveSegs base target) = m + 1 :=
    ⟨(normalizeSegs (splitPath base)).length
      - commonPrefixLen (normalizeSegs (splitPath base)) (resolveSegs base target) - 1, by omega⟩
  have hrel : relative base (resolve base target)
      = joinSep "/" (".."
          :: (List.replicate m ".."
            ++ (resolveSegs base target).drop
                (commonPrefixLen (normalizeSegs (splitPath base)) (resolveSegs base target)))) := by
    unfold relative
    rw [normalizeSegs_splitPath_resolve base target, hm, List.replicate_succ, List.cons_append]
  have hsd : startsWithDotDot (relative base (resolve base target)) = true := by
    rw [hrel]
    exact startsWithDotDot_joinSep_dotdot _
  show (if startsWithDotDot (relative base (resolve base target))
        || isAbsolute (relative base (resolve base target)) then
      (Except.error ("Path \"" ++ target ++ "\" is outside allowed directory")
        : Except String String)
    else .ok (resolve base target)).isOk = false
  rw [hsd]
  rfl

/-- C7 counterexample: `validatePath("..x", "/base")` fails even though the
resolved path `/base/..x` lies inside `/base` (the relative offset `..x`
starts with the characters `..` without beginning with a parent-directory
segment), so the claimed equivalence with "the target lies outside baseDir"
is false. -/
theorem validatePath_claim_counterexample :
    (validatePath "..x" "/base").isOk = false
    ∧ resolve "/base" "..x" = "/base/..x"
    ∧ isWithin "/base" (resolve "/base" "..x") = true
    ∧ relative "/base" (resolve "/base" "..x") = "..x" := by
  refine ⟨?_, ?_, ?_, ?_⟩ <;> decide

/-- C7 (amended): `validatePath` fails whenever the relative offset from
`baseDir` starts with the two characters `..` or is absolute; this implies
failure for every target resolving outside `baseDir`, but also rejects some
in-base targets whose offset merely begins with those characters. The two
original examples hold: `validatePath("../x", "/base")` fails and
`validatePath("a/../b", "/base")` resolves to `/base/b`. -/
theorem validatePath_sound_amended (base target : String)
    (_hb : isAbsolute base = true) :
    (isWithin base (resolve base target) = false
      → (validatePath target base).isOk = false)
    ∧ (validatePath "../x" "/base").isOk = false
    ∧ validatePath "a/../b" "/base" = .ok "/base/b" := by
  refine ⟨validatePath_errors_outside base target, by decide, by rfl⟩

/-- Witness for `validatePath_sound_amended` at the absolute base `/base`
and target `x`. -/
theorem validatePath_sound_amended_witness :
    isAbsolute "/base" = true
    ∧ ((isWithin "/base" (resolve "/base" "x") = false
          → (validatePath "x" "/base").isOk = false)
        ∧ (validatePath "../x" "/base").isOk = false
        ∧ validatePath "a/../b" "/base" = .ok "/base/b") :=
  ⟨by decide, validatePath_sound_amended "/base" "x" (by decide)⟩

/-! ## `appendLine` (`src/utils/fs.ts`)

The file under the given path is modelled by its observable content:
`none` when absent, `some content` when present. `appendLine` returns the
content after the call. -/

/-- `content.endsWith("\n")`. -/
def endsWithNewline (s : String) : Bool :=
  match s.data.getLast? with
  | some c => c = '\n'
  | none => false

/-- `appendLine` from `fs.ts`: create the file with `line + "\n"` when
absent; otherwise append `"\n" + line + "\n"` when the existing content is
non-empty and lacks a trailing newline, else append `line + "\n"`. -/
def appendLine (prior : Option String) (line : String) : String :=
  match prior with
  | none => line ++ "\n"
  | some content =>
    if 0 < content.length ∧ endsWithNewline content = false then
      content ++ ("\n" ++ line ++ "\n")
    else
      content ++ (line ++ "\n")

/-- C8 counterexample: on an existing but empty file, whose content does not
end with a newline, `appendLine` appends `line + "\n"` directly — not the
`"\n" + line + "\n"` the claim's non-terminated-file clause dictates. -/
theorem appendLine_claim_counterexample :
    appendLine (some "") "Line 2" = "Line 2\n"
    ∧ endsWithNewline "" = false
    ∧ "Line 2\n" ≠ "\n" ++ "Line 2" ++ "\n" := by
  refine ⟨by rfl, by rfl, by decide⟩

/-- C8 (amended): for every prior state, `appendLine` yields `line + "\n"`
when the file is absent; prefixes a newline before `line + "\n"` only when
the existing content is non-empty and does not end with `"\n"`; and appends
`line + "\n"` directly when the content is empty or already
newline-terminated. The original scenario holds: appending `Line 2` to a
file containing `Line 1` yields `Line 1\nLine 2\n`. -/
theorem appendLine_characterization_amended (prior : Option String) (line : String) :
    (appendLine prior line
      = match prior with
        | none => line ++ "\n"
        | some content =>
          if content ≠ "" ∧ endsWithNewline content = false then
            content ++ ("\n" ++ line ++ "\n")
          else content ++ (line ++ "\n"))
    ∧ appendLine (some "Line 1") "Line 2" = "Line 1\nLine 2\n" := by
  constructor
  · cases prior with
    | none => rfl
    | some content =>
      show (if 0 < content.length ∧ endsWithNewline content = false then
          content ++ ("\n" ++ line ++ "\n")
        else content ++ (line ++ "\n"))
        = (if content ≠ "" ∧ endsWithNewline content = false then
            content ++ ("\n" ++ line ++ "\n")
          else content ++ (line ++ "\n"))
      have hlen : 0 < content.length ↔ content ≠ "" := by
        obtain ⟨data⟩ := content
        constructor
        · intro hpos heq
          rw [heq] at hpos
          simp at hpos
        · intro hne
          cases data with
          | nil => exact absurd rfl hne
          | cons c cs => simp [String.length_mk]
      by_cases h : 0 < content.length ∧ endsWithNewline content = false
      · rw [if_pos h, if_pos ⟨hlen.mp h.1, h.2⟩]
      · rw [if_neg h, if_neg fun hcontra => h ⟨hlen.mpr hcontra.1, hcontra.2⟩]
  · rfl
